import Mathlib

set_option maxHeartbeats 1000000

/-!
Verification development for the semantic-version subsystem of the `tbx`
repository (`tbx_essential/src/text/version/semantic` and
`tbx_essential/src/text/essential.rs`).

Rust strings are modelled as lists of unicode scalar values (`List Char`),
which matches Rust `str::chars` iteration.  Byte-level operations
(`str::get`, `char::len_utf8`) are modelled explicitly so that the
codepoint-safe `substring` helpers are embedded faithfully.
-/

/-- Model of Rust `char::is_ascii_digit`. -/
def isAsciiDigit (c : Char) : Bool :=
  decide (48 ≤ c.toNat ∧ c.toNat ≤ 57)

/-- `parse_is_non_digit` from `semantic/parse.rs`: ASCII letters and the hyphen. -/
def parse_is_non_digit (c : Char) : Bool :=
  decide ((97 ≤ c.toNat ∧ c.toNat ≤ 122) ∨ (65 ≤ c.toNat ∧ c.toNat ≤ 90) ∨ c.toNat = 45)

/-- `parse_is_identifier_character` from `semantic/parse.rs`: digit or non-digit. -/
def parse_is_identifier_character (c : Char) : Bool :=
  if isAsciiDigit c then true else parse_is_non_digit c

/-- `AsciiMatcher::is_ascii_numeric` from `token/ascii.rs`:
all characters are ASCII digits (vacuously true on the empty string). -/
def is_ascii_numeric (cs : List Char) : Bool :=
  cs.all isAsciiDigit

/-- Model of Rust `Iterator::position`. -/
def position (p : Char → Bool) : List Char → Option Nat
  | [] => none
  | c :: cs => if p c then some 0 else (position p cs).map (· + 1)

/-- `iterator.position(p).unwrap_or(0)`, as used throughout the parser. -/
def posOr0 (p : Char → Bool) (cs : List Char) : Nat :=
  (position p cs).getD 0

/-- Model of Rust `Iterator::nth` on a list. -/
def listNth {α : Type} : List α → Nat → Option α
  | [], _ => none
  | x :: _, 0 => some x
  | _ :: xs, n + 1 => listNth xs n

/-- Model of Rust `str::split('.')`: the list of `'.'`-separated segments
(possibly empty segments; splitting the empty string yields one empty segment). -/
def splitDot : List Char → List (List Char)
  | [] => [[]]
  | c :: cs =>
    if c = '.' then [] :: splitDot cs
    else
      match splitDot cs with
      | [] => [[c]]
      | t :: ts => (c :: t) :: ts

/-- Model of Rust `Vec::join(".")` on a list of segments. -/
def joinDot : List (List Char) → List Char
  | [] => []
  | [x] => x
  | x :: xs => x ++ '.' :: joinDot xs

/-- Model of Rust `char::len_utf8`. -/
def utf8Len (c : Char) : Nat :=
  if c.toNat < 128 then 1 else if c.toNat < 2048 then 2 else if c.toNat < 65536 then 3 else 4

/-- Byte offset of the codepoint index `n`:
`self.chars().take(n).map(|c| c.len_utf8()).sum()`. -/
def byteIdx (cs : List Char) (n : Nat) : Nat :=
  ((cs.take n).map utf8Len).sum

/-- Codepoint index corresponding to a byte offset, when the byte offset is a
character boundary of the UTF-8 encoding (`none` otherwise). -/
def boundaryIdx : List Char → Nat → Option Nat
  | _, 0 => some 0
  | [], _ + 1 => none
  | c :: cs, b + 1 =>
    if b + 1 < utf8Len c then none
    else (boundaryIdx cs (b + 1 - utf8Len c)).map (· + 1)

/-- Model of Rust `str::get(s..f)` at byte offsets `s`, `f`. -/
def strGet (cs : List Char) (s f : Nat) : Option (List Char) :=
  if f < s then none
  else
    match boundaryIdx cs s, boundaryIdx cs f with
    | some i, some j => some ((cs.take j).drop i)
    | _, _ => none

/-- Model of Rust `str::get(s..)` at byte offset `s`. -/
def strGetFrom (cs : List Char) (s : Nat) : Option (List Char) :=
  (boundaryIdx cs s).map (fun i => cs.drop i)

/-- `StringEssential::substring` from `text/essential.rs`. -/
def substring (cs : List Char) (start finish : Nat) : Option (List Char) :=
  if finish ≤ start then none
  else
    let s := byteIdx cs start
    let f := byteIdx cs finish
    if f ≤ s ∨ cs.length < finish then none
    else strGet cs s f

/-- `StringEssential::substring_to_end` from `text/essential.rs`. -/
def substring_to_end (cs : List Char) (start : Nat) : Option (List Char) :=
  if cs.length ≤ start then none
  else strGetFrom cs (byteIdx cs start)

/-- Numeric value of an ASCII digit character. -/
def digitVal (c : Char) : Nat := c.toNat - 48

/-- Value denoted by a list of ASCII digit characters (most significant first). -/
def digitsVal (cs : List Char) : Nat :=
  cs.foldl (fun a c => 10 * a + digitVal c) 0

/-- The part of the input Rust `u64::from_str` looks at after stripping an
optional leading plus sign. -/
def u64Body (cs : List Char) : List Char :=
  match cs with
  | '+' :: rest => rest
  | _ => cs

/-- Model of Rust `str::parse::<u64>()`: optional `+` sign, then a non-empty
run of ASCII digits denoting a value below `2 ^ 64`. -/
def rustParseU64 (cs : List Char) : Option Nat :=
  let body := u64Body cs
  if body = [] then none
  else if body.all isAsciiDigit then
    if digitsVal body < 2 ^ 64 then some (digitsVal body) else none
  else none

/-- Magnitude part of Rust `str::parse::<i64>()`: for the digits after the
optional sign, the value must fit the signed 64-bit range. -/
def i64Body (neg : Bool) (body : List Char) : Option Int :=
  if body = [] then none
  else if body.all isAsciiDigit then
    if neg then
      if digitsVal body ≤ 2 ^ 63 then some (-(digitsVal body : Int)) else none
    else
      if digitsVal body < 2 ^ 63 then some (digitsVal body) else none
  else none

/-- Model of Rust `str::parse::<i64>()`: optional `+` or `-` sign, then a
non-empty run of ASCII digits denoting a value in the i64 range. -/
def rustParseI64 (cs : List Char) : Option Int :=
  match cs with
  | '-' :: rest => i64Body true rest
  | '+' :: rest => i64Body false rest
  | _ => i64Body false cs

/-- Model of Rust `Ord::cmp` on unsigned integers. -/
def natCmp (a b : Nat) : Ordering :=
  if a < b then .lt else if b < a then .gt else .eq

/-- Model of Rust `Ord::cmp` on signed integers. -/
def intCmp (a b : Int) : Ordering :=
  if a < b then .lt else if b < a then .gt else .eq

/-- Model of Rust `Ord::cmp` on `str`: byte-wise UTF-8 comparison, which
coincides with codepoint-wise lexicographic comparison. -/
def strCmp : List Char → List Char → Ordering
  | [], [] => .eq
  | [], _ :: _ => .lt
  | _ :: _, [] => .gt
  | x :: xs, y :: ys =>
    if x.toNat < y.toNat then .lt
    else if y.toNat < x.toNat then .gt
    else strCmp xs ys

/-- `cmp_pre_release` from `semantic/compare.rs`: parse both identifiers as
`i64`; numeric/numeric compares the values, numeric sorts below non-numeric,
non-numeric/non-numeric compares the strings. -/
def cmp_pre_release (x y : List Char) : Ordering :=
  match rustParseI64 x, rustParseI64 y with
  | some nx, some ny => intCmp nx ny
  | some _, none => .lt
  | none, some _ => .gt
  | none, none => strCmp x y

/-- `ParseInvalidPart` from `semantic/error.rs`. -/
inductive ParseInvalidPart where
  | Major
  | Minor
  | Patch
  | VersionNumber
  | PreRelease
  | PrereleaseOrBuild
  | Build
  | NumericIdentifier
  | AlphaNumericIdentifier
  | Other
deriving DecidableEq

/-- `ParseErrorReason` from `semantic/error.rs`. -/
inductive ParseErrorReason where
  | InvalidChar (c : Char)
  | InvalidPattern
  | NonAsciiAlphaNumString (s : List Char)
  | NumberIdentifierShouldNotHaveLeadingZero
deriving DecidableEq

/-- `ParseError` from `semantic/error.rs`. -/
structure ParseError where
  part : ParseInvalidPart
  reason : ParseErrorReason
deriving DecidableEq

deriving instance DecidableEq for Except

/-- Whether a Rust `Result` is `Ok`. -/
def isOkE {α : Type} : Except ParseError α → Bool
  | .ok _ => true
  | .error _ => false

/-- `parse_numeric_identifier` from `semantic/parse.rs`. -/
def parse_numeric_identifier (pre : List Char) (strict : Bool) :
    Except ParseError (List Char) :=
  if strict then
    if pre = ['0'] then .ok pre
    else
      match pre.head? with
      | none => .error ⟨.NumericIdentifier, .InvalidPattern⟩
      | some f =>
        if f = '0' then
          .error ⟨.NumericIdentifier, .NumberIdentifierShouldNotHaveLeadingZero⟩
        else if is_ascii_numeric pre then .ok pre
        else .error ⟨.NumericIdentifier, .InvalidChar f⟩
  else
    if is_ascii_numeric pre then .ok pre
    else .error ⟨.NumericIdentifier, .NonAsciiAlphaNumString pre⟩

/-- `parse_alphanumeric_identifier` from `semantic/parse.rs`, including the
trailing space guard the source appends before scanning. -/
def parse_alphanumeric_identifier (pre : List Char) (strict : Bool) :
    Except ParseError (List Char) :=
  let pre_len := pre.length
  let pre_with_guard := pre ++ [' ']
  if strict then
    let pos_non_digit : Nat :=
      match pre_with_guard.head? with
      | none => 0
      | some c => if parse_is_non_digit c then 1 else 0
    if pos_non_digit = 1 then
      let pos_identifier_char :=
        posOr0 (fun c => ! parse_is_identifier_character c) (pre_with_guard.drop pos_non_digit)
      if pos_non_digit + pos_identifier_char = pre_len then .ok pre
      else .error ⟨.AlphaNumericIdentifier, .InvalidPattern⟩
    else
      let pos_identifier1 := posOr0 (fun c => ! parse_is_identifier_character c) pre_with_guard
      let pos_non_digit1 : Nat :=
        match listNth pre_with_guard pos_identifier1 with
        | none => 0
        | some c => if parse_is_non_digit c then 1 else 0
      let pos_identifier2 :=
        posOr0 (fun c => ! parse_is_identifier_character c)
          (pre_with_guard.drop (pos_identifier1 + pos_non_digit1))
      if pos_identifier1 = 0 then .error ⟨.AlphaNumericIdentifier, .InvalidPattern⟩
      else if pos_identifier1 + pos_non_digit1 = pre_len ∧ pos_non_digit1 = 1 then .ok pre
      else if pos_identifier1 + pos_non_digit1 + pos_identifier2 = pre_len ∧ pos_non_digit1 = 1 then
        .ok pre
      else .error ⟨.AlphaNumericIdentifier, .InvalidPattern⟩
  else
    let pos_non_id := posOr0 (fun c => ! parse_is_identifier_character c) pre_with_guard
    if pos_non_id = pre_len then .ok pre
    else .error ⟨.AlphaNumericIdentifier, .NonAsciiAlphaNumString pre⟩

/-- Model of collecting an iterator of Rust `Result`s into a `Result` of a
`Vec`: stops at the first error. -/
def collectIds (f : List Char → Except ParseError (List Char)) :
    List (List Char) → Except ParseError (List (List Char))
  | [] => .ok []
  | x :: xs =>
    match f x with
    | .error e => .error e
    | .ok v =>
      match collectIds f xs with
      | .error e => .error e
      | .ok vs => .ok (v :: vs)

/-- `PreRelease` from `semantic/prerelease.rs`. -/
structure PreRelease where
  pre_release : List (List Char)
deriving DecidableEq

/-- `PreRelease::parse_pre_release_identifier`: alphanumeric first, then numeric. -/
def parse_pre_release_identifier (pre : List Char) (strict : Bool) :
    Except ParseError (List Char) :=
  match parse_alphanumeric_identifier pre strict with
  | .ok id => .ok id
  | .error _ =>
    match parse_numeric_identifier pre strict with
    | .ok id => .ok id
    | .error _ => .error ⟨.PreRelease, .InvalidPattern⟩

/-- `PreRelease::parse_pre_release`: split on `'.'` and validate each segment. -/
def parse_pre_release (pre : List Char) (strict : Bool) :
    Except ParseError (List (List Char)) :=
  collectIds (fun p => parse_pre_release_identifier p strict) (splitDot pre)

/-- `PreRelease::parse`. -/
def PreRelease.parse (pre : List Char) (strict : Bool) : Except ParseError PreRelease :=
  match parse_pre_release pre strict with
  | .ok p => .ok ⟨p⟩
  | .error e => .error e

/-- `Display for PreRelease`: join the identifiers with `'.'`. -/
def PreRelease.format (p : PreRelease) : List Char :=
  joinDot p.pre_release

/-- The indexed loop inside `PartialOrd for PreRelease`: walk `self`'s
identifiers, looking the peer up by position; `none` means the loop finished
without returning. -/
def preCmpLoop (other : List (List Char)) : Nat → List (List Char) → Option Ordering
  | _, [] => none
  | i, vx :: vxs =>
    match listNth other i with
    | some vy =>
      let vc := cmp_pre_release vx vy
      if vc = .eq then preCmpLoop other (i + 1) vxs else some vc
    | none => some .gt

/-- `PartialOrd::partial_cmp for PreRelease` from `semantic/prerelease.rs`. -/
def PreRelease.cmp (a b : PreRelease) : Option Ordering :=
  match preCmpLoop b.pre_release 0 a.pre_release with
  | some o => some o
  | none =>
    if a.pre_release.length = b.pre_release.length then some .eq
    else if a.pre_release.length < b.pre_release.length then some .lt
    else some .gt

/-- `Build` from `semantic/build.rs`. -/
structure Build where
  build : List (List Char)
deriving DecidableEq

/-- `Build::parse_build_identifier`: alphanumeric first, then any ASCII digit run. -/
def parse_build_identifier (b : List Char) (strict : Bool) :
    Except ParseError (List Char) :=
  match parse_alphanumeric_identifier b strict with
  | .ok id => .ok id
  | .error _ =>
    if is_ascii_numeric b then .ok b
    else .error ⟨.Build, .InvalidPattern⟩

/-- `Build::parse_build`: split on `'.'` and validate each segment. -/
def parse_build (b : List Char) (strict : Bool) :
    Except ParseError (List (List Char)) :=
  collectIds (fun p => parse_build_identifier p strict) (splitDot b)

/-- `Build::parse`. -/
def Build.parse (b : List Char) (strict : Bool) : Except ParseError Build :=
  match parse_build b strict with
  | .ok ids => .ok ⟨ids⟩
  | .error e => .error e

/-- `Display for Build`: join the identifiers with `'.'`. -/
def Build.format (b : Build) : List Char :=
  joinDot b.build

/-- `Version` from `semantic.rs`. -/
structure Version where
  major : Nat
  minor : Nat
  patch : Nat
  pre_release : Option PreRelease
  build : Option Build
deriving DecidableEq

/-- `Version::zero`. -/
def Version.zero : Version :=
  ⟨0, 0, 0, none, none⟩

/-- `Version::new`. -/
def Version.new (major minor patch : Nat) : Version :=
  ⟨major, minor, patch, none, none⟩

/-- `Version::parse_version_core` from `semantic.rs`. -/
def parse_version_core (ver : List Char) (strict : Bool) :
    Except ParseError (Nat × Nat × Nat × Option (List Char)) :=
  let ver_with_guard := ver ++ [' ']
  let pos_dot1 := posOr0 (· == '.') ver
  let pos_dot2 := posOr0 (· == '.') (ver.drop (pos_dot1 + 1))
  if pos_dot1 = 0 ∨ pos_dot2 = 0 then .error ⟨.VersionNumber, .InvalidPattern⟩
  else
    let pos_reminder :=
      posOr0 (fun c => ! isAsciiDigit c) (ver_with_guard.drop (pos_dot1 + pos_dot2 + 2))
    let part_major := substring ver 0 pos_dot1
    let part_minor := substring ver (pos_dot1 + 1) (pos_dot1 + pos_dot2 + 1)
    let part_patch :=
      substring ver (pos_dot1 + pos_dot2 + 2) (pos_dot1 + pos_dot2 + 2 + pos_reminder)
    if 0 < pos_reminder then
      match part_major, part_minor, part_patch with
      | some p_major, some p_minor, some p_patch =>
        match parse_numeric_identifier p_major strict with
        | .error e => .error e
        | .ok s_major =>
          match parse_numeric_identifier p_minor strict with
          | .error e => .error e
          | .ok s_minor =>
            match parse_numeric_identifier p_patch strict with
            | .error e => .error e
            | .ok s_patch =>
              match rustParseU64 s_major, rustParseU64 s_minor, rustParseU64 s_patch,
                  substring_to_end ver (pos_dot1 + pos_dot2 + 2 + pos_reminder) with
              | some v_major, some v_minor, some v_patch, some s_rem =>
                .ok (v_major, v_minor, v_patch, some s_rem)
              | some v_major, some v_minor, some v_patch, none =>
                .ok (v_major, v_minor, v_patch, none)
              | _, _, _, _ => .error ⟨.VersionNumber, .InvalidPattern⟩
      | _, _, _ => .error ⟨.VersionNumber, .InvalidPattern⟩
    else .error ⟨.VersionNumber, .InvalidPattern⟩

/-- `Version::parse_pre_release_and_build` from `semantic.rs`. -/
def parse_pre_release_and_build (ver_reminder : List Char) (strict : Bool) :
    Except ParseError (Option PreRelease × Option Build) :=
  let pos_plus := position (· == '+') ver_reminder
  let first_char := ver_reminder.head?
  match first_char, pos_plus with
  | some '-', some p_plus =>
    match substring ver_reminder 1 p_plus, substring_to_end ver_reminder (p_plus + 1) with
    | some v_pre_release, some v_build =>
      match PreRelease.parse v_pre_release strict with
      | .error e => .error e
      | .ok p =>
        match Build.parse v_build strict with
        | .error e => .error e
        | .ok b => .ok (some p, some b)
    | _, _ => .error ⟨.PrereleaseOrBuild, .InvalidPattern⟩
  | some '-', none =>
    match substring_to_end ver_reminder 1 with
    | some v_pre_release =>
      match PreRelease.parse v_pre_release strict with
      | .error e => .error e
      | .ok p => .ok (some p, none)
    | none => .error ⟨.PreRelease, .InvalidPattern⟩
  | some '+', some p_plus =>
    match substring_to_end ver_reminder (p_plus + 1) with
    | some v_build =>
      match Build.parse v_build strict with
      | .error e => .error e
      | .ok b => .ok (none, some b)
    | none => .error ⟨.Build, .InvalidPattern⟩
  | _, _ => .error ⟨.PrereleaseOrBuild, .InvalidPattern⟩

/-- `Version::parse` from `semantic.rs`. -/
def Version.parse (ver : List Char) (strict : Bool) : Except ParseError Version :=
  match parse_version_core ver strict with
  | .error e => .error e
  | .ok (major, minor, patch, reminder) =>
    match reminder with
    | some r =>
      match parse_pre_release_and_build r strict with
      | .error e => .error e
      | .ok pb => .ok ⟨major, minor, patch, pb.1, pb.2⟩
    | none => .ok ⟨major, minor, patch, none, none⟩

/-- ASCII digit character for a digit value. -/
def digitChar : Nat → Char
  | 0 => '0' | 1 => '1' | 2 => '2' | 3 => '3' | 4 => '4'
  | 5 => '5' | 6 => '6' | 7 => '7' | 8 => '8' | 9 => '9'
  | _ => '*'

/-- Fuelled decimal rendering of an unsigned integer (most significant first). -/
def natDigitsAux : Nat → Nat → List Char
  | 0, _ => []
  | fuel + 1, n =>
    if n < 10 then [digitChar n]
    else natDigitsAux fuel (n / 10) ++ [digitChar (n % 10)]

/-- Model of Rust `Display` for `u64`: decimal digits, no sign, no padding. -/
def natDigits (n : Nat) : List Char :=
  natDigitsAux (n + 1) n

/-- `Display for Version` from `semantic.rs` (the canonical format). -/
def Version.format (v : Version) : List Char :=
  match v.pre_release, v.build with
  | some pre, some b =>
    natDigits v.major ++ '.' :: (natDigits v.minor ++ '.' :: (natDigits v.patch
      ++ '-' :: (PreRelease.format pre ++ '+' :: Build.format b)))
  | some pre, none =>
    natDigits v.major ++ '.' :: (natDigits v.minor ++ '.' :: (natDigits v.patch
      ++ '-' :: PreRelease.format pre))
  | none, some b =>
    natDigits v.major ++ '.' :: (natDigits v.minor ++ '.' :: (natDigits v.patch
      ++ '+' :: Build.format b))
  | none, none =>
    natDigits v.major ++ '.' :: (natDigits v.minor ++ '.' :: natDigits v.patch)

/-- `PartialEq for Version` from `semantic.rs`: structural equality over all
five fields, build included. -/
def Version.equals (a b : Version) : Bool :=
  decide (a.major = b.major) && decide (a.minor = b.minor) && decide (a.patch = b.patch)
    && decide (a.pre_release = b.pre_release) && decide (a.build = b.build)

/-- `PartialOrd::partial_cmp for Version` from `semantic.rs`: major, minor,
patch, then pre-release precedence; build is never consulted. -/
def Version.cmp (a b : Version) : Option Ordering :=
  let cmp_major := natCmp a.major b.major
  if cmp_major ≠ .eq then some cmp_major
  else
    let cmp_minor := natCmp a.minor b.minor
    if cmp_minor ≠ .eq then some cmp_minor
    else
      let cmp_patch := natCmp a.patch b.patch
      if cmp_patch ≠ .eq then some cmp_patch
      else
        match a.pre_release, b.pre_release with
        | some sp, some op => sp.cmp op
        | some _, none => some .lt
        | none, some _ => some .gt
        | none, none => some .eq

/-- Ordering comparison of two strict-parsed version strings (`none` when a
parse fails); used to state concrete comparison facts. -/
def cmpStrict (s1 s2 : String) : Option Ordering :=
  match Version.parse s1.toList true, Version.parse s2.toList true with
  | .ok a, .ok b => Version.cmp a b
  | _, _ => none

/-- Structural restatement of the pre-release identifier-list comparison
(used to reason about `PreRelease.cmp`): first non-equal position decides,
a strict prefix sorts lower. -/
def cmpIdLists : List (List Char) → List (List Char) → Ordering
  | [], [] => .eq
  | [], _ :: _ => .lt
  | _ :: _, [] => .gt
  | x :: xs, y :: ys =>
    if cmp_pre_release x y = .eq then cmpIdLists xs ys else cmp_pre_release x y

/-- Structural restatement of the indexed loop inside `PreRelease.cmp`:
`none` when the left list is exhausted without a decision. -/
def cmpIdAux : List (List Char) → List (List Char) → Option Ordering
  | [], _ => none
  | _ :: _, [] => some .gt
  | x :: xs, y :: ys =>
    if cmp_pre_release x y = .eq then cmpIdAux xs ys else some (cmp_pre_release x y)

/-- The invariant every `Version` produced by strict parsing satisfies:
components fit in 64 bits, the pre-release and build identifier lists come
from a non-empty dot-separated text whose segments pass strict validation. -/
def VersionWF (v : Version) : Prop :=
  v.major < 2 ^ 64 ∧ v.minor < 2 ^ 64 ∧ v.patch < 2 ^ 64 ∧
    (∀ p, v.pre_release = some p → joinDot p.pre_release ≠ [] ∧
      ∀ id ∈ p.pre_release, parse_pre_release_identifier id true = .ok id) ∧
    (∀ b, v.build = some b → joinDot b.build ≠ [] ∧
      ∀ id ∈ b.build, parse_build_identifier id true = .ok id)

theorem utf8Len_pos (c : Char) : 1 ≤ utf8Len c := by
  unfold utf8Len
  split <;> [omega; split] <;> [omega; split] <;> omega


theorem position_eq_none {p : Char → Bool} {l : List Char} :
    position p l = none ↔ ∀ c ∈ l, p c = false := by
  induction l with
  | nil => simp [position]
  | cons c cs ih =>
    cases hc : p c with
    | true => simp [position, hc]
    | false => simp [position, hc, ih]

theorem position_lt_length {p : Char → Bool} {l : List Char} {n : Nat}
    (h : position p l = some n) : n < l.length := by
  induction l generalizing n with
  | nil => simp [position] at h
  | cons c cs ih =>
    cases hc : p c with
    | true =>
      simp [position, hc] at h
      simp [← h]
    | false =>
      simp [position, hc, Option.map_eq_some'] at h
      obtain ⟨m, hm, rfl⟩ := h
      have := ih hm
      simp
      omega

theorem position_nth {p : Char → Bool} {l : List Char} {n : Nat}
    (h : position p l = some n) : ∃ c, listNth l n = some c ∧ p c = true := by
  induction l generalizing n with
  | nil => simp [position] at h
  | cons c cs ih =>
    cases hc : p c with
    | true =>
      simp [position, hc] at h
      exact ⟨c, by simp [← h, listNth], hc⟩
    | false =>
      simp [position, hc, Option.map_eq_some'] at h
      obtain ⟨m, hm, rfl⟩ := h
      obtain ⟨d, hd, hpd⟩ := ih hm
      exact ⟨d, by simpa [listNth] using hd, hpd⟩

theorem position_append_none {p : Char → Bool} {a : List Char} (b : List Char)
    (h : position p a = none) :
    position p (a ++ b) = (position p b).map (· + a.length) := by
  induction a with
  | nil => simp
  | cons c cs ih =>
    cases hc : p c with
    | true => simp [position, hc] at h
    | false =>
      simp [position, hc] at h
      simp [position, hc, ih h]

theorem position_append_some {p : Char → Bool} {a : List Char} (b : List Char) {n : Nat}
    (h : position p a = some n) : position p (a ++ b) = some n := by
  induction a generalizing n with
  | nil => simp [position] at h
  | cons c cs ih =>
    cases hc : p c with
    | true =>
      simp [position, hc] at h ⊢
      simpa using h
    | false =>
      simp [position, hc, Option.map_eq_some'] at h
      obtain ⟨m, hm, rfl⟩ := h
      simp [position, hc, ih hm]

theorem listNth_eq_head_drop {α : Type} (l : List α) (n : Nat) :
    listNth l n = (l.drop n).head? := by
  induction l generalizing n with
  | nil => cases n <;> simp [listNth]
  | cons x xs ih =>
    cases n with
    | zero => simp [listNth]
    | succ m => simpa [listNth] using ih m

theorem byteIdx_zero (cs : List Char) : byteIdx cs 0 = 0 := by
  simp [byteIdx]

theorem byteIdx_cons_succ (c : Char) (cs : List Char) (n : Nat) :
    byteIdx (c :: cs) (n + 1) = utf8Len c + byteIdx cs n := by
  simp [byteIdx]

theorem boundaryIdx_byteIdx (cs : List Char) (n : Nat) :
    boundaryIdx cs (byteIdx cs n) = some (min n cs.length) := by
  induction cs generalizing n with
  | nil => simp [byteIdx, boundaryIdx]
  | cons c cs ih =>
    cases n with
    | zero => simp [byteIdx, boundaryIdx]
    | succ m =>
      rw [byteIdx_cons_succ]
      have h1 := utf8Len_pos c
      have hk : utf8Len c + byteIdx cs m = (utf8Len c + byteIdx cs m - 1) + 1 := by omega
      rw [hk]
      simp only [boundaryIdx]
      rw [if_neg (by omega)]
      have h2 : utf8Len c + byteIdx cs m - 1 + 1 - utf8Len c = byteIdx cs m := by omega
      rw [h2, ih]
      simp [Nat.succ_min_succ]

theorem byteIdx_lt_byteIdx (cs : List Char) {a b : Nat} (hab : a < b) (hb : b ≤ cs.length) :
    byteIdx cs a < byteIdx cs b := by
  induction cs generalizing a b with
  | nil => simp at hb; omega
  | cons c cs ih =>
    cases a with
    | zero =>
      cases b with
      | zero => omega
      | succ b' =>
        rw [byteIdx_zero, byteIdx_cons_succ]
        have := utf8Len_pos c
        omega
    | succ a' =>
      cases b with
      | zero => omega
      | succ b' =>
        rw [byteIdx_cons_succ, byteIdx_cons_succ]
        have : byteIdx cs a' < byteIdx cs b' := ih (by omega) (by simpa using hb)
        omega

theorem substring_eq (cs : List Char) (a b : Nat) :
    substring cs a b =
      if a < b ∧ b ≤ cs.length then some ((cs.take b).drop a) else none := by
  simp only [substring]
  split
  · next hba => rw [if_neg (by omega)]
  · next hba =>
    split
    · next hcond =>
      rcases hcond with hfs | hlen
      · rw [if_neg]
        rintro ⟨hab, hble⟩
        exact absurd (byteIdx_lt_byteIdx cs hab hble) (by omega)
      · rw [if_neg (by omega)]
    · next hcond =>
      rw [not_or] at hcond
      obtain ⟨hfs, hlen⟩ := hcond
      have hab : a < b := by omega
      have hble : b ≤ cs.length := by omega
      rw [if_pos ⟨hab, hble⟩]
      simp only [strGet]
      rw [if_neg (by omega)]
      have hma : min a cs.length = a := Nat.min_eq_left (by omega)
      have hmb : min b cs.length = b := Nat.min_eq_left (by omega)
      rw [boundaryIdx_byteIdx, boundaryIdx_byteIdx, hma, hmb]

theorem substring_to_end_eq (cs : List Char) (a : Nat) :
    substring_to_end cs a = if a < cs.length then some (cs.drop a) else none := by
  simp only [substring_to_end, strGetFrom]
  split
  · next h => rw [if_neg (by omega)]
  · next h =>
    rw [boundaryIdx_byteIdx]
    have hm : min a cs.length = a := Nat.min_eq_left (by omega)
    rw [hm, if_pos (by omega)]
    rfl

theorem splitDot_ne_nil (t : List Char) : splitDot t ≠ [] := by
  cases t with
  | nil => simp [splitDot]
  | cons c cs =>
    simp only [splitDot]
    split
    · simp
    · split <;> simp

theorem joinDot_cons (x : List Char) {u : List (List Char)} (hu : u ≠ []) :
    joinDot (x :: u) = x ++ '.' :: joinDot u := by
  cases u with
  | nil => exact absurd rfl hu
  | cons y ys => rfl

theorem joinDot_cons_cons (c : Char) (u : List Char) (us : List (List Char)) :
    joinDot ((c :: u) :: us) = c :: joinDot (u :: us) := by
  cases us <;> rfl

theorem joinDot_splitDot (t : List Char) : joinDot (splitDot t) = t := by
  induction t with
  | nil => rfl
  | cons c cs ih =>
    by_cases hc : c = '.'
    · subst hc
      rw [show splitDot ('.' :: cs) = [] :: splitDot cs from by simp [splitDot]]
      rw [joinDot_cons _ (splitDot_ne_nil cs)]
      simpa using ih
    · obtain ⟨u, us, hu⟩ : ∃ u us, splitDot cs = u :: us := by
        cases h : splitDot cs with
        | nil => exact absurd h (splitDot_ne_nil cs)
        | cons u us => exact ⟨u, us, rfl⟩
      rw [show splitDot (c :: cs) = (c :: u) :: us from by simp [splitDot, hc, hu]]
      rw [hu] at ih
      rw [joinDot_cons_cons, ih]

theorem splitDot_append {a t : List Char} (ha : ∀ c ∈ a, c ≠ '.') {u : List Char}
    {us : List (List Char)} (ht : splitDot t = u :: us) :
    splitDot (a ++ t) = (a ++ u) :: us := by
  induction a with
  | nil => simpa using ht
  | cons c cs ih =>
    have hc : c ≠ '.' := ha c (by simp)
    have ih' := ih (fun d hd => ha d (by simp [hd]))
    show splitDot (c :: (cs ++ t)) = ((c :: cs) ++ u) :: us
    simp [splitDot, ih', hc]

theorem splitDot_joinDot {l : List (List Char)} (hl : l ≠ [])
    (hids : ∀ id ∈ l, ∀ c ∈ id, c ≠ '.') : splitDot (joinDot l) = l := by
  induction l with
  | nil => exact absurd rfl hl
  | cons x xs ih =>
    cases xs with
    | nil =>
      have h0 : splitDot ([] : List Char) = [] :: [] := rfl
      have := splitDot_append (hids x (by simp)) h0
      simpa using this
    | cons y ys =>
      have hx : ∀ c ∈ x, c ≠ '.' := hids x (by simp)
      have ihy : splitDot (joinDot (y :: ys)) = y :: ys :=
        ih (by simp) (fun id hid => hids id (by simp [hid]))
      rw [joinDot_cons x (by simp)]
      have h1 : splitDot ('.' :: joinDot (y :: ys)) = [] :: splitDot (joinDot (y :: ys)) := by
        simp [splitDot]
      rw [ihy] at h1
      have h2 := splitDot_append hx h1
      rw [h2]
      simp

theorem digitChar_spec {d : Nat} (hd : d ≤ 9) :
    isAsciiDigit (digitChar d) = true ∧ digitVal (digitChar d) = d ∧
      (1 ≤ d → digitChar d ≠ '0') := by
  interval_cases d <;> exact ⟨by decide, by decide, by decide⟩

theorem digitsVal_append_singleton (xs : List Char) (c : Char) :
    digitsVal (xs ++ [c]) = 10 * digitsVal xs + digitVal c := by
  simp [digitsVal, List.foldl_append]

theorem natDigitsAux_spec :
    ∀ fuel n, n < fuel →
      (natDigitsAux fuel n).all isAsciiDigit = true ∧
      natDigitsAux fuel n ≠ [] ∧
      digitsVal (natDigitsAux fuel n) = n ∧
      (1 ≤ n → ∃ c rest, natDigitsAux fuel n = c :: rest ∧ c ≠ '0') := by
  intro fuel
  induction fuel with
  | zero => intro n h; omega
  | succ fuel ih =>
    intro n h
    by_cases h10 : n < 10
    · obtain ⟨hd1, hd2, hd3⟩ := digitChar_spec (show n ≤ 9 by omega)
      refine ⟨by simp [natDigitsAux, h10, hd1], by simp [natDigitsAux, h10], ?_, ?_⟩
      · simp [natDigitsAux, h10, digitsVal, hd2]
      · intro h1
        exact ⟨digitChar n, [], by simp [natDigitsAux, h10], hd3 h1⟩
    · have hdivlt : n / 10 < fuel := by omega
      obtain ⟨ha, hne, hval, hhead⟩ := ih (n / 10) hdivlt
      obtain ⟨hm1, hm2, _⟩ := digitChar_spec (show n % 10 ≤ 9 by omega)
      simp only [natDigitsAux, h10, if_false]
      refine ⟨?_, by simp, ?_, ?_⟩
      · simp [List.all_append, ha, hm1]
      · rw [digitsVal_append_singleton, hval, hm2]
        omega
      · intro _
        obtain ⟨c, rest, heq, hc0⟩ := hhead (by omega)
        exact ⟨c, rest ++ [digitChar (n % 10)], by rw [heq]; simp, hc0⟩

theorem natDigits_all (n : Nat) : (natDigits n).all isAsciiDigit = true :=
  (natDigitsAux_spec (n + 1) n (by omega)).1

theorem natDigits_ne_nil (n : Nat) : natDigits n ≠ [] :=
  (natDigitsAux_spec (n + 1) n (by omega)).2.1

theorem digitsVal_natDigits (n : Nat) : digitsVal (natDigits n) = n :=
  (natDigitsAux_spec (n + 1) n (by omega)).2.2.1

theorem natDigits_head_ne_zero {n : Nat} (h : 1 ≤ n) :
    ∃ c rest, natDigits n = c :: rest ∧ c ≠ '0' :=
  (natDigitsAux_spec (n + 1) n (by omega)).2.2.2 h

theorem parse_numeric_natDigits (n : Nat) :
    parse_numeric_identifier (natDigits n) true = .ok (natDigits n) := by
  by_cases h0 : n = 0
  · subst h0
    rfl
  · obtain ⟨c, rest, heq, hc0⟩ := natDigits_head_ne_zero (show 1 ≤ n by omega)
    have hall := natDigits_all n
    have hne : natDigits n ≠ ['0'] := by
      intro hcontra
      have hv := digitsVal_natDigits n
      rw [hcontra] at hv
      simp [digitsVal, digitVal] at hv
      omega
    rw [heq] at hall hne ⊢
    simp only [parse_numeric_identifier, if_true]
    rw [if_neg hne]
    simp only [List.head?]
    rw [if_neg hc0]
    simp [is_ascii_numeric, hall]

theorem u64Body_natDigits (n : Nat) : u64Body (natDigits n) = natDigits n := by
  have hall := natDigits_all n
  have hne := natDigits_ne_nil n
  cases heq : natDigits n with
  | nil => exact absurd heq hne
  | cons c rest =>
    rw [heq] at hall
    have hcd : isAsciiDigit c = true := by
      simp [List.all_cons] at hall
      exact hall.1
    have hcp : c ≠ '+' := by
      intro hc
      subst hc
      simp [isAsciiDigit] at hcd
    simp only [u64Body]
    split
    · next r hr =>
      simp at hr
      exact absurd hr.1 hcp
    · rfl

theorem rustParseU64_natDigits {n : Nat} (h : n < 2 ^ 64) :
    rustParseU64 (natDigits n) = some n := by
  simp only [rustParseU64, u64Body_natDigits]
  rw [if_neg (natDigits_ne_nil n)]
  rw [show (natDigits n).all isAsciiDigit = true from natDigits_all n]
  rw [digitsVal_natDigits]
  simp only [if_pos h]
  simp

theorem id_space : parse_is_identifier_character ' ' = false := by
  decide

theorem nd_imp_id {c : Char} (h : parse_is_non_digit c = true) :
    parse_is_identifier_character c = true := by
  simp only [parse_is_identifier_character]
  split
  · rfl
  · exact h

theorem digit_imp_id {c : Char} (h : isAsciiDigit c = true) :
    parse_is_identifier_character c = true := by
  simp [parse_is_identifier_character, h]

theorem id_ne_dot {c : Char} (h : parse_is_identifier_character c = true) : c ≠ '.' := by
  rintro rfl
  exact absurd h (by decide)

theorem id_ne_plus {c : Char} (h : parse_is_identifier_character c = true) : c ≠ '+' := by
  rintro rfl
  exact absurd h (by decide)

theorem alphanum_strict_cons_nd {c : Char} (rest : List Char)
    (hnd : parse_is_non_digit c = true) :
    parse_alphanumeric_identifier (c :: rest) true =
      if rest.all parse_is_identifier_character then .ok (c :: rest)
      else .error ⟨.AlphaNumericIdentifier, .InvalidPattern⟩ := by
  by_cases hall : rest.all parse_is_identifier_character = true
  · have hnone : position (fun x => ! parse_is_identifier_character x) rest = none := by
      rw [position_eq_none]
      intro d hd
      simp [List.all_eq_true] at hall
      simp [hall d hd]
    have hpos : position (fun x => ! parse_is_identifier_character x) (rest ++ [' '])
        = some rest.length := by
      rw [position_append_none _ hnone]
      simp [position, id_space]
    simp [parse_alphanumeric_identifier, posOr0, hnd, hpos, hall, Nat.add_comm]
  · obtain ⟨k, hk⟩ : ∃ k, position (fun x => ! parse_is_identifier_character x) rest = some k := by
      cases hp : position (fun x => ! parse_is_identifier_character x) rest with
      | some k => exact ⟨k, rfl⟩
      | none =>
        rw [position_eq_none] at hp
        exfalso
        apply hall
        simp [List.all_eq_true]
        intro d hd
        have := hp d hd
        simpa using this
    have hklt := position_lt_length hk
    have hpos : position (fun x => ! parse_is_identifier_character x) (rest ++ [' '])
        = some k := position_append_some _ hk
    simp [parse_alphanumeric_identifier, posOr0, hnd, hpos, hall]
    omega

theorem alphanum_strict_cons_other {c : Char} (rest : List Char)
    (hnd : parse_is_non_digit c = false) :
    parse_alphanumeric_identifier (c :: rest) true =
      .error ⟨.AlphaNumericIdentifier, .InvalidPattern⟩ := by
  cases hp : position (fun x => ! parse_is_identifier_character x) (c :: (rest ++ [' '])) with
  | none =>
    simp [parse_alphanumeric_identifier, posOr0, hnd, hp]
  | some k =>
    rcases Nat.eq_zero_or_pos k with hk0 | hkpos
    · subst hk0
      simp [parse_alphanumeric_identifier, posOr0, hnd, hp]
    · obtain ⟨d, hd, hpd⟩ := position_nth hp
      have hdid : parse_is_identifier_character d = false := by
        simpa using hpd
      have hdnd : parse_is_non_digit d = false := by
        cases h : parse_is_non_digit d with
        | false => rfl
        | true => rw [nd_imp_id h] at hdid; cases hdid
      simp [parse_alphanumeric_identifier, posOr0, hnd, hp, hd, hdnd]

theorem alphanum_strict_eq (cs : List Char) :
    parse_alphanumeric_identifier cs true =
      match cs with
      | [] => .error ⟨.AlphaNumericIdentifier, .InvalidPattern⟩
      | c :: rest =>
        if parse_is_non_digit c && rest.all parse_is_identifier_character then .ok (c :: rest)
        else .error ⟨.AlphaNumericIdentifier, .InvalidPattern⟩ := by
  cases cs with
  | nil => rfl
  | cons c rest =>
    cases hnd : parse_is_non_digit c with
    | true =>
      rw [alphanum_strict_cons_nd rest hnd]
      simp [hnd]
    | false =>
      rw [alphanum_strict_cons_other rest hnd]
      simp [hnd]

theorem alphanum_lenient_eq (cs : List Char) :
    parse_alphanumeric_identifier cs false =
      if cs.all parse_is_identifier_character then .ok cs
      else .error ⟨.AlphaNumericIdentifier, .NonAsciiAlphaNumString cs⟩ := by
  by_cases hall : cs.all parse_is_identifier_character = true
  · have hnone : position (fun x => ! parse_is_identifier_character x) cs = none := by
      rw [position_eq_none]
      intro d hd
      simp [List.all_eq_true] at hall
      simp [hall d hd]
    have hpos : position (fun x => ! parse_is_identifier_character x) (cs ++ [' '])
        = some cs.length := by
      rw [position_append_none _ hnone]
      simp [position, id_space]
    simp [parse_alphanumeric_identifier, posOr0, hpos, hall]
  · obtain ⟨k, hk⟩ : ∃ k, position (fun x => ! parse_is_identifier_character x) cs = some k := by
      cases hp : position (fun x => ! parse_is_identifier_character x) cs with
      | some k => exact ⟨k, rfl⟩
      | none =>
        rw [position_eq_none] at hp
        exfalso
        apply hall
        simp [List.all_eq_true]
        intro d hd
        have := hp d hd
        simpa using this
    have hklt := position_lt_length hk
    have hpos : position (fun x => ! parse_is_identifier_character x) (cs ++ [' '])
        = some k := position_append_some _ hk
    simp [parse_alphanumeric_identifier, posOr0, hpos, hall]
    omega

theorem numeric_ok_val {cs v : List Char} {strict : Bool}
    (h : parse_numeric_identifier cs strict = .ok v) : v = cs := by
  cases strict <;> simp only [parse_numeric_identifier] at h
  · rw [if_neg Bool.false_ne_true] at h
    split at h
    · exact (Except.ok.inj h).symm
    · exact Except.noConfusion h
  · rw [if_pos trivial] at h
    split at h
    · exact (Except.ok.inj h).symm
    · split at h
      · exact Except.noConfusion h
      · split at h
        · exact Except.noConfusion h
        · split at h
          · exact (Except.ok.inj h).symm
          · exact Except.noConfusion h

theorem numeric_ok_digits {cs v : List Char} {strict : Bool}
    (h : parse_numeric_identifier cs strict = .ok v) : is_ascii_numeric cs = true := by
  cases strict <;> simp only [parse_numeric_identifier] at h
  · rw [if_neg Bool.false_ne_true] at h
    split at h
    · next hnum => exact hnum
    · exact Except.noConfusion h
  · rw [if_pos trivial] at h
    split at h
    · next h0 => rw [h0]; decide
    · split at h
      · exact Except.noConfusion h
      · split at h
        · exact Except.noConfusion h
        · split at h
          · next hnum => exact hnum
          · exact Except.noConfusion h

theorem numeric_error_part {cs : List Char} {strict : Bool} {e : ParseError}
    (h : parse_numeric_identifier cs strict = .error e) : e.part = .NumericIdentifier := by
  cases strict <;> simp only [parse_numeric_identifier] at h
  · rw [if_neg Bool.false_ne_true] at h
    split at h
    · exact Except.noConfusion h
    · cases (Except.error.inj h); rfl
  · rw [if_pos trivial] at h
    split at h
    · exact Except.noConfusion h
    · split at h
      · cases (Except.error.inj h); rfl
      · split at h
        · cases (Except.error.inj h); rfl
        · split at h
          · exact Except.noConfusion h
          · cases (Except.error.inj h); rfl

theorem alphanum_ok_val {cs v : List Char} {strict : Bool}
    (h : parse_alphanumeric_identifier cs strict = .ok v) : v = cs := by
  cases strict
  · rw [alphanum_lenient_eq] at h
    split at h
    · exact (Except.ok.inj h).symm
    · exact Except.noConfusion h
  · rw [alphanum_strict_eq] at h
    cases cs with
    | nil => exact Except.noConfusion h
    | cons c rest =>
      simp only [] at h
      split at h
      · exact (Except.ok.inj h).symm
      · exact Except.noConfusion h

theorem pre_ident_ok_val {cs v : List Char} {strict : Bool}
    (h : parse_pre_release_identifier cs strict = .ok v) : v = cs := by
  unfold parse_pre_release_identifier at h
  split at h
  · next id heq =>
    have hv := alphanum_ok_val heq
    cases (Except.ok.inj h)
    exact hv
  · next e heq =>
    split at h
    · next id2 heq2 =>
      have hv := numeric_ok_val heq2
      cases (Except.ok.inj h)
      exact hv
    · exact Except.noConfusion h

theorem build_ident_ok_val {cs v : List Char} {strict : Bool}
    (h : parse_build_identifier cs strict = .ok v) : v = cs := by
  unfold parse_build_identifier at h
  split at h
  · next id heq =>
    have hv := alphanum_ok_val heq
    cases (Except.ok.inj h)
    exact hv
  · next e heq =>
    split at h
    · exact (Except.ok.inj h).symm
    · exact Except.noConfusion h

theorem pre_ident_strict_chars {cs v : List Char}
    (h : parse_pre_release_identifier cs true = .ok v) :
    cs ≠ [] ∧ cs.all parse_is_identifier_character = true := by
  unfold parse_pre_release_identifier at h
  split at h
  · next id heq =>
    rw [alphanum_strict_eq] at heq
    cases cs with
    | nil => exact Except.noConfusion heq
    | cons c rest =>
      simp only [] at heq
      split at heq
      · next hcond =>
        simp only [Bool.and_eq_true] at hcond
        refine ⟨by simp, ?_⟩
        rw [List.all_cons]
        simp [nd_imp_id hcond.1, hcond.2]
      · exact Except.noConfusion heq
  · next e heq =>
    split at h
    · next id2 heq2 =>
      have hdig := numeric_ok_digits heq2
      constructor
      · rintro rfl
        rw [show parse_numeric_identifier ([] : List Char) true
            = .error ⟨.NumericIdentifier, .InvalidPattern⟩ from by decide] at heq2
        exact Except.noConfusion heq2
      · simp only [is_ascii_numeric, List.all_eq_true] at hdig
        simp only [List.all_eq_true]
        intro d hd
        exact digit_imp_id (hdig d hd)
    · exact Except.noConfusion h

theorem build_ident_strict_chars {cs v : List Char}
    (h : parse_build_identifier cs true = .ok v) :
    cs.all parse_is_identifier_character = true := by
  unfold parse_build_identifier at h
  split at h
  · next id heq =>
    rw [alphanum_strict_eq] at heq
    cases cs with
    | nil => exact Except.noConfusion heq
    | cons c rest =>
      simp only [] at heq
      split at heq
      · next hcond =>
        simp only [Bool.and_eq_true] at hcond
        rw [List.all_cons]
        simp [nd_imp_id hcond.1, hcond.2]
      · exact Except.noConfusion heq
  · next e heq =>
    split at h
    · next hnum =>
      simp only [is_ascii_numeric, List.all_eq_true] at hnum
      simp only [List.all_eq_true]
      intro d hd
      exact digit_imp_id (hnum d hd)
    · exact Except.noConfusion h

theorem collectIds_isOk_all (f : List Char → Except ParseError (List Char)) :
    ∀ l, isOkE (collectIds f l) = l.all (fun x => isOkE (f x)) := by
  intro l
  induction l with
  | nil => rfl
  | cons x xs ih =>
    simp only [collectIds, List.all_cons]
    cases hf : f x with
    | error e => simp [isOkE]
    | ok v =>
      cases hc : collectIds f xs with
      | error e =>
        rw [hc] at ih
        simp only [hf, hc]
        rw [← ih]
        simp [isOkE, hf]
      | ok vs =>
        rw [hc] at ih
        simp only [hf, hc]
        rw [← ih]
        simp [isOkE, hf]

theorem collectIds_ok_id {f : List Char → Except ParseError (List Char)}
    (hf : ∀ x v, f x = .ok v → v = x) :
    ∀ {l r}, collectIds f l = .ok r → r = l ∧ ∀ x ∈ l, f x = .ok x := by
  intro l
  induction l with
  | nil =>
    intro r h
    cases (Except.ok.inj h)
    exact ⟨rfl, by simp⟩
  | cons x xs ih =>
    intro r h
    simp only [collectIds] at h
    split at h
    · exact Except.noConfusion h
    · next v hv =>
      split at h
      · exact Except.noConfusion h
      · next vs hvs =>
        cases (Except.ok.inj h)
        obtain ⟨h1, h2⟩ := ih hvs
        have hvx := hf x v hv
        subst hvx
        subst h1
        refine ⟨rfl, ?_⟩
        intro y hy
        rcases List.mem_cons.mp hy with rfl | hy'
        · exact hv
        · exact h2 y hy'

theorem collectIds_all_ok {f : List Char → Except ParseError (List Char)} {l : List (List Char)}
    (h : ∀ x ∈ l, f x = .ok x) : collectIds f l = .ok l := by
  induction l with
  | nil => rfl
  | cons x xs ih =>
    have hx := h x (by simp)
    have hxs := ih (fun y hy => h y (by simp [hy]))
    simp [collectIds, hx, hxs]

theorem strCmp_refl (l : List Char) : strCmp l l = .eq := by
  induction l with
  | nil => rfl
  | cons c cs ih => simp [strCmp, ih]

theorem intCmp_refl (n : Int) : intCmp n n = .eq := by
  simp [intCmp]

theorem natCmp_refl (n : Nat) : natCmp n n = .eq := by
  simp [natCmp]

theorem cmp_pre_release_refl (x : List Char) : cmp_pre_release x x = .eq := by
  cases h : rustParseI64 x with
  | some n => simp [cmp_pre_release, h, intCmp_refl]
  | none => simp [cmp_pre_release, h, strCmp_refl]

theorem preCmpLoop_eq (ys : List (List Char)) :
    ∀ xs i, preCmpLoop ys i xs = cmpIdAux xs (ys.drop i) := by
  intro xs
  induction xs with
  | nil => intro i; rfl
  | cons x xs ih =>
    intro i
    simp only [preCmpLoop, listNth_eq_head_drop]
    cases hd : ys.drop i with
    | nil => simp [cmpIdAux, hd]
    | cons y t =>
      have ht : ys.drop (i + 1) = t := by
        rw [← List.tail_drop, hd]
        rfl
      simp only [List.head?_cons, cmpIdAux]
      by_cases hc : cmp_pre_release x y = .eq
      · simp [hc, ih (i + 1), ht]
      · simp [hc]

theorem cmpIdAux_cmpIdLists : ∀ xs ys : List (List Char),
    (match cmpIdAux xs ys with
     | some o => some o
     | none =>
       if xs.length = ys.length then some Ordering.eq
       else if xs.length < ys.length then some Ordering.lt
       else some Ordering.gt) = some (cmpIdLists xs ys) := by
  intro xs
  induction xs with
  | nil =>
    intro ys
    cases ys with
    | nil => rfl
    | cons y t => simp [cmpIdAux, cmpIdLists]
  | cons x xs ih =>
    intro ys
    cases ys with
    | nil => rfl
    | cons y t =>
      have hi := ih t
      by_cases hc : cmp_pre_release x y = .eq
      · simp only [cmpIdAux, cmpIdLists, hc, if_true]
        cases ha : cmpIdAux xs t with
        | some o =>
          rw [ha] at hi
          simpa using hi
        | none =>
          rw [ha] at hi
          simp only [List.length_cons]
          simpa [Nat.succ_lt_succ_iff] using hi
      · simp [cmpIdAux, cmpIdLists, hc]

theorem preRelease_cmp_eq (xs ys : List (List Char)) :
    PreRelease.cmp ⟨xs⟩ ⟨ys⟩ = some (cmpIdLists xs ys) := by
  unfold PreRelease.cmp
  rw [show (⟨ys⟩ : PreRelease).pre_release = ys from rfl]
  rw [show (⟨xs⟩ : PreRelease).pre_release = xs from rfl]
  rw [show (0 : Nat) = 0 from rfl]
  rw [preCmpLoop_eq ys xs 0]
  simpa using cmpIdAux_cmpIdLists xs ys

theorem cmpIdLists_refl (l : List (List Char)) : cmpIdLists l l = .eq := by
  induction l with
  | nil => rfl
  | cons x xs ih => simp [cmpIdLists, cmp_pre_release_refl, ih]

theorem cmpIdLists_self_append (l : List (List Char)) (r : List Char)
    (rs : List (List Char)) : cmpIdLists l (l ++ r :: rs) = .lt := by
  induction l with
  | nil => rfl
  | cons x xs ih => simp [cmpIdLists, cmp_pre_release_refl, ih]

theorem preRelease_cmp_self (p : PreRelease) : PreRelease.cmp p p = some .eq := by
  obtain ⟨l⟩ := p
  rw [preRelease_cmp_eq, cmpIdLists_refl]

theorem version_cmp_eq_of_fields {v1 v2 : Version} (h1 : v1.major = v2.major)
    (h2 : v1.minor = v2.minor) (h3 : v1.patch = v2.patch)
    (h4 : v1.pre_release = v2.pre_release) : Version.cmp v1 v2 = some .eq := by
  unfold Version.cmp
  rw [h1, h2, h3, h4, natCmp_refl, natCmp_refl, natCmp_refl]
  simp only [ne_eq, not_true_eq_false, if_false]
  cases v2.pre_release with
  | none => rfl
  | some p => simpa using preRelease_cmp_self p

theorem preRelease_parse_ok {t : List Char} {strict : Bool} {p : PreRelease}
    (h : PreRelease.parse t strict = .ok p) :
    p.pre_release = splitDot t ∧
      ∀ id ∈ splitDot t, parse_pre_release_identifier id strict = .ok id := by
  unfold PreRelease.parse parse_pre_release at h
  split at h
  · next r hr =>
    obtain ⟨h1, h2⟩ := collectIds_ok_id (fun x v hv => pre_ident_ok_val hv) hr
    cases (Except.ok.inj h)
    exact ⟨h1, h2⟩
  · exact Except.noConfusion h

theorem preRelease_parse_of_all {t : List Char} {strict : Bool}
    (h : ∀ id ∈ splitDot t, parse_pre_release_identifier id strict = .ok id) :
    PreRelease.parse t strict = .ok ⟨splitDot t⟩ := by
  unfold PreRelease.parse parse_pre_release
  rw [collectIds_all_ok h]

theorem build_parse_ok {t : List Char} {strict : Bool} {b : Build}
    (h : Build.parse t strict = .ok b) :
    b.build = splitDot t ∧
      ∀ id ∈ splitDot t, parse_build_identifier id strict = .ok id := by
  unfold Build.parse parse_build at h
  split at h
  · next r hr =>
    obtain ⟨h1, h2⟩ := collectIds_ok_id (fun x v hv => build_ident_ok_val hv) hr
    cases (Except.ok.inj h)
    exact ⟨h1, h2⟩
  · exact Except.noConfusion h

theorem build_parse_of_all {t : List Char} {strict : Bool}
    (h : ∀ id ∈ splitDot t, parse_build_identifier id strict = .ok id) :
    Build.parse t strict = .ok ⟨splitDot t⟩ := by
  unfold Build.parse parse_build
  rw [collectIds_all_ok h]

theorem preRelease_parse_isOk (t : List Char) (strict : Bool) :
    isOkE (PreRelease.parse t strict)
      = (splitDot t).all (fun id => isOkE (parse_pre_release_identifier id strict)) := by
  unfold PreRelease.parse parse_pre_release
  rw [← collectIds_isOk_all]
  cases collectIds (fun p => parse_pre_release_identifier p strict) (splitDot t) <;>
    simp [isOkE]

theorem build_parse_isOk (t : List Char) (strict : Bool) :
    isOkE (Build.parse t strict)
      = (splitDot t).all (fun id => isOkE (parse_build_identifier id strict)) := by
  unfold Build.parse parse_build
  rw [← collectIds_isOk_all]
  cases collectIds (fun p => parse_build_identifier p strict) (splitDot t) <;>
    simp [isOkE]

theorem ppb_plus (b : List Char) (strict : Bool) :
    parse_pre_release_and_build ('+' :: b) strict =
      if b = [] then .error ⟨.Build, .InvalidPattern⟩
      else
        match Build.parse b strict with
        | .ok bb => .ok (none, some bb)
        | .error e => .error e := by
  by_cases hb : b = []
  · subst hb
    rfl
  · have hse : substring_to_end ('+' :: b) (0 + 1) = some b := by
      rw [substring_to_end_eq]
      cases b with
      | nil => exact absurd rfl hb
      | cons c cs => simp
    simp [parse_pre_release_and_build, position, hse, hb]
    cases Build.parse b strict <;> rfl

theorem ppb_dash {p : List Char} (strict : Bool) (hplus : ∀ c ∈ p, c ≠ '+') :
    parse_pre_release_and_build ('-' :: p) strict =
      if p = [] then .error ⟨.PreRelease, .InvalidPattern⟩
      else
        match PreRelease.parse p strict with
        | .ok pp => .ok (some pp, none)
        | .error e => .error e := by
  have hpos : position (· == '+') ('-' :: p) = none := by
    rw [position_eq_none]
    intro c hc
    rcases List.mem_cons.mp hc with rfl | hc'
    · decide
    · simp [hplus c hc']
  by_cases hp : p = []
  · subst hp
    rfl
  · have hse : substring_to_end ('-' :: p) 1 = some p := by
      rw [substring_to_end_eq]
      cases p with
      | nil => exact absurd rfl hp
      | cons c cs => simp
    simp [parse_pre_release_and_build, hpos, hse, hp]
    cases PreRelease.parse p strict <;> rfl

theorem ppb_dash_plus {p b : List Char} (strict : Bool) (hplus : ∀ c ∈ p, c ≠ '+')
    (hp : p ≠ []) (hb : b ≠ []) :
    parse_pre_release_and_build ('-' :: (p ++ '+' :: b)) strict =
      match PreRelease.parse p strict with
      | .error e => .error e
      | .ok pp =>
        match Build.parse b strict with
        | .error e => .error e
        | .ok bb => .ok (some pp, some bb) := by
  have hp1 : 1 ≤ p.length := List.length_pos.mpr hp
  have hb1 : 1 ≤ b.length := List.length_pos.mpr hb
  have hpos : position (· == '+') ('-' :: (p ++ '+' :: b)) = some (p.length + 1) := by
    have h1 : position (· == '+') p = none := by
      rw [position_eq_none]
      intro c hc
      simp [hplus c hc]
    have h2 : position (· == '+') (p ++ '+' :: b) = some p.length := by
      rw [position_append_none _ h1]
      simp [position]
    simp [position, h2]
  have hlen : ('-' :: (p ++ '+' :: b)).length = p.length + b.length + 2 := by
    simp
    omega
  have hsub : substring ('-' :: (p ++ '+' :: b)) 1 (p.length + 1) = some p := by
    rw [substring_eq, if_pos ⟨by omega, by rw [hlen]; omega⟩]
    rw [List.take_succ_cons, List.take_left]
    simp
  have hse : substring_to_end ('-' :: (p ++ '+' :: b)) (p.length + 1 + 1) = some b := by
    rw [substring_to_end_eq, if_pos (by rw [hlen]; omega)]
    rw [show ('-' :: (p ++ '+' :: b)) = (('-' :: p) ++ ['+']) ++ b from by simp]
    rw [show p.length + 1 + 1 = (('-' :: p) ++ ['+']).length from by simp]
    rw [List.drop_left]
  simp [parse_pre_release_and_build, hpos, hsub, hse]

theorem digit_ne_dot {c : Char} (h : isAsciiDigit c = true) : c ≠ '.' := by
  rintro rfl
  exact absurd h (by decide)

theorem digits_no_dot {D : List Char} (h : D.all isAsciiDigit = true) :
    position (· == '.') D = none := by
  rw [position_eq_none]
  intro c hc
  simp [digit_ne_dot ((List.all_eq_true.mp h) c hc)]

theorem digits_no_nondigit {D : List Char} (h : D.all isAsciiDigit = true) :
    position (fun c => ! isAsciiDigit c) D = none := by
  rw [position_eq_none]
  intro c hc
  simp [(List.all_eq_true.mp h) c hc]

theorem core_of_parts {D1 D2 D3 R : List Char} {x y z : Nat} (strict : Bool)
    (h1v : parse_numeric_identifier D1 strict = .ok D1)
    (h2v : parse_numeric_identifier D2 strict = .ok D2)
    (h3v : parse_numeric_identifier D3 strict = .ok D3)
    (h1u : rustParseU64 D1 = some x)
    (h2u : rustParseU64 D2 = some y)
    (h3u : rustParseU64 D3 = some z)
    (h1d : D1.all isAsciiDigit = true)
    (h2d : D2.all isAsciiDigit = true)
    (h3d : D3.all isAsciiDigit = true)
    (h1n : D1 ≠ []) (h2n : D2 ≠ []) (h3n : D3 ≠ [])
    (hR : ∀ c rest, R = c :: rest → isAsciiDigit c = false) :
    parse_version_core (D1 ++ '.' :: (D2 ++ '.' :: (D3 ++ R))) strict
      = .ok (x, y, z, if R = [] then none else some R) := by
  have h1p : 1 ≤ D1.length := List.length_pos.mpr h1n
  have h2p : 1 ≤ D2.length := List.length_pos.mpr h2n
  have h3p : 1 ≤ D3.length := List.length_pos.mpr h3n
  have hlen : (D1 ++ '.' :: (D2 ++ '.' :: (D3 ++ R))).length
      = D1.length + D2.length + D3.length + R.length + 2 := by
    simp
    omega
  -- position of the first dot
  have hpos1 : posOr0 (· == '.') (D1 ++ '.' :: (D2 ++ '.' :: (D3 ++ R))) = D1.length := by
    rw [posOr0, position_append_none _ (digits_no_dot h1d)]
    simp [position]
  -- dropping past the first dot
  have hdrop1 : (D1 ++ '.' :: (D2 ++ '.' :: (D3 ++ R))).drop (D1.length + 1)
      = D2 ++ '.' :: (D3 ++ R) := by
    rw [List.append_cons D1 '.' (D2 ++ '.' :: (D3 ++ R))]
    rw [show D1.length + 1 = (D1 ++ ['.']).length from by simp]
    exact List.drop_left _ _
  -- position of the second dot
  have hpos2 : posOr0 (· == '.')
      ((D1 ++ '.' :: (D2 ++ '.' :: (D3 ++ R))).drop (D1.length + 1)) = D2.length := by
    rw [hdrop1, posOr0, position_append_none _ (digits_no_dot h2d)]
    simp [position]
  -- dropping up to the patch digits in the guarded string
  have hdropg : ((D1 ++ '.' :: (D2 ++ '.' :: (D3 ++ R))) ++ [' ']).drop
      (D1.length + D2.length + 2) = D3 ++ (R ++ [' ']) := by
    have hshape : (D1 ++ '.' :: (D2 ++ '.' :: (D3 ++ R))) ++ [' ']
        = ((D1 ++ ['.']) ++ (D2 ++ ['.'])) ++ (D3 ++ (R ++ [' '])) := by
      simp
    rw [hshape]
    rw [show D1.length + D2.length + 2 = ((D1 ++ ['.']) ++ (D2 ++ ['.'])).length from by
      simp; omega]
    exact List.drop_left _ _
  -- the maximal digit run after the second dot
  have hposr : posOr0 (fun c => ! isAsciiDigit c)
      (((D1 ++ '.' :: (D2 ++ '.' :: (D3 ++ R))) ++ [' ']).drop (D1.length + D2.length + 2))
      = D3.length := by
    rw [hdropg, posOr0, position_append_none _ (digits_no_nondigit h3d)]
    cases hRc : R with
    | nil => simp [position, show isAsciiDigit ' ' = false from by decide]
    | cons c rest =>
      have := hR c rest hRc
      simp [position, this]
  -- the three extracted number segments
  have hmajor : substring (D1 ++ '.' :: (D2 ++ '.' :: (D3 ++ R))) 0 D1.length = some D1 := by
    rw [substring_eq, if_pos ⟨by omega, by rw [hlen]; omega⟩]
    simp [List.take_left]
  have hminor : substring (D1 ++ '.' :: (D2 ++ '.' :: (D3 ++ R)))
      (D1.length + 1) (D1.length + D2.length + 1) = some D2 := by
    rw [substring_eq, if_pos ⟨by omega, by rw [hlen]; omega⟩]
    have hshape : (D1 ++ '.' :: (D2 ++ '.' :: (D3 ++ R)))
        = (D1 ++ ['.']) ++ (D2 ++ ('.' :: (D3 ++ R))) := by
      simp
    rw [hshape]
    rw [show D1.length + D2.length + 1 = (D1 ++ ['.']).length + D2.length from by simp; omega]
    rw [List.take_append]
    rw [List.take_left]
    rw [show D1.length + 1 = (D1 ++ ['.']).length from by simp]
    rw [List.drop_left]
  have hpatch : substring (D1 ++ '.' :: (D2 ++ '.' :: (D3 ++ R)))
      (D1.length + D2.length + 2) (D1.length + D2.length + 2 + D3.length) = some D3 := by
    rw [substring_eq, if_pos ⟨by omega, by rw [hlen]; omega⟩]
    have hshape : (D1 ++ '.' :: (D2 ++ '.' :: (D3 ++ R)))
        = ((D1 ++ ['.']) ++ (D2 ++ ['.'])) ++ (D3 ++ R) := by
      simp
    rw [hshape]
    rw [show D1.length + D2.length + 2 + D3.length
        = ((D1 ++ ['.']) ++ (D2 ++ ['.'])).length + D3.length from by simp; omega]
    rw [List.take_append]
    rw [List.take_left]
    rw [show D1.length + D2.length + 2 = ((D1 ++ ['.']) ++ (D2 ++ ['.'])).length from by
      simp; omega]
    rw [List.drop_left]
  have hrem : substring_to_end (D1 ++ '.' :: (D2 ++ '.' :: (D3 ++ R)))
      (D1.length + D2.length + 2 + D3.length) = if R = [] then none else some R := by
    rw [substring_to_end_eq]
    by_cases hRnil : R = []
    · subst hRnil
      rw [if_neg (by rw [hlen]; simp; omega), if_pos rfl]
    · have hR1 : 1 ≤ R.length := List.length_pos.mpr hRnil
      rw [if_pos (by rw [hlen]; omega), if_neg hRnil]
      have hshape : (D1 ++ '.' :: (D2 ++ '.' :: (D3 ++ R)))
          = (((D1 ++ ['.']) ++ (D2 ++ ['.'])) ++ D3) ++ R := by
        simp
      rw [hshape]
      rw [show D1.length + D2.length + 2 + D3.length
          = ((((D1 ++ ['.']) ++ (D2 ++ ['.'])) ++ D3)).length from by simp; omega]
      rw [List.drop_left]
  -- assemble
  simp only [parse_version_core, hpos1, hpos2, hposr, hmajor, hminor, hpatch]
  rw [if_neg (by omega)]
  rw [if_pos (by omega)]
  simp only [h1v, h2v, h3v, h1u, h2u, h3u, hrem]
  by_cases hRnil : R = []
  · simp [hRnil]
  · simp [hRnil]

theorem rustParseU64_lt {cs : List Char} {n : Nat} (h : rustParseU64 cs = some n) :
    n < 2 ^ 64 := by
  simp only [rustParseU64] at h
  split at h
  · exact Option.noConfusion h
  · split at h
    · split at h
      · next hlt =>
        cases (Option.some.inj h)
        exact hlt
      · exact Option.noConfusion h
    · exact Option.noConfusion h

theorem substring_to_end_ne_nil {cs r : List Char} {start : Nat}
    (h : substring_to_end cs start = some r) : r ≠ [] := by
  rw [substring_to_end_eq] at h
  split at h
  · next hlt =>
    cases (Option.some.inj h)
    intro hnil
    have := List.drop_eq_nil_iff.mp hnil
    omega
  · exact Option.noConfusion h

theorem substring_ne_nil {cs r : List Char} {a b : Nat}
    (h : substring cs a b = some r) : r ≠ [] := by
  rw [substring_eq] at h
  split at h
  · next hab =>
    cases (Option.some.inj h)
    intro hnil
    have h1 := List.drop_eq_nil_iff.mp hnil
    rw [List.length_take] at h1
    omega
  · exact Option.noConfusion h

theorem version_core_ok_inv {ver : List Char} {strict : Bool} {x y z : Nat}
    {rem : Option (List Char)}
    (h : parse_version_core ver strict = .ok (x, y, z, rem)) :
    x < 2 ^ 64 ∧ y < 2 ^ 64 ∧ z < 2 ^ 64 ∧ ∀ r, rem = some r → r ≠ [] := by
  simp only [parse_version_core] at h
  split at h
  · exact Except.noConfusion h
  · split at h
    · split at h
      · split at h
        · exact Except.noConfusion h
        · split at h
          · exact Except.noConfusion h
          · split at h
            · exact Except.noConfusion h
            · split at h
              · next hu1 hu2 hu3 hse =>
                cases (Except.ok.inj h)
                refine ⟨rustParseU64_lt hu1, rustParseU64_lt hu2, rustParseU64_lt hu3, ?_⟩
                intro r hr
                cases (Option.some.inj hr)
                exact substring_to_end_ne_nil hse
              · next hu1 hu2 hu3 hse =>
                cases (Except.ok.inj h)
                refine ⟨rustParseU64_lt hu1, rustParseU64_lt hu2, rustParseU64_lt hu3, ?_⟩
                intro r hr
                exact Option.noConfusion hr
              · exact Except.noConfusion h
      · exact Except.noConfusion h
    · exact Except.noConfusion h

theorem ppb_ok_inv {r : List Char} {pre : Option PreRelease} {bld : Option Build}
    (h : parse_pre_release_and_build r true = .ok (pre, bld)) :
    (∀ p, pre = some p → joinDot p.pre_release ≠ [] ∧
      ∀ id ∈ p.pre_release, parse_pre_release_identifier id true = .ok id) ∧
    (∀ b, bld = some b → joinDot b.build ≠ [] ∧
      ∀ id ∈ b.build, parse_build_identifier id true = .ok id) := by
  simp only [parse_pre_release_and_build] at h
  split at h
  · -- leading '-' with a '+': both pre-release and build
    split at h
    · next v_pre v_build hsub hse =>
      split at h
      · exact Except.noConfusion h
      · next p hp =>
        split at h
        · exact Except.noConfusion h
        · next b hb =>
          cases (Except.ok.inj h)
          obtain ⟨hp1, hp2⟩ := preRelease_parse_ok hp
          obtain ⟨hb1, hb2⟩ := build_parse_ok hb
          constructor
          · intro p' hp'
            cases (Option.some.inj hp')
            constructor
            · rw [hp1, joinDot_splitDot]
              exact substring_ne_nil hsub
            · intro id hid
              exact hp2 id (by rwa [← hp1])
          · intro b' hb'
            cases (Option.some.inj hb')
            constructor
            · rw [hb1, joinDot_splitDot]
              exact substring_to_end_ne_nil hse
            · intro id hid
              exact hb2 id (by rwa [← hb1])
    · exact Except.noConfusion h
  · -- leading '-' with no '+': pre-release only
    split at h
    · next v_pre hse =>
      split at h
      · exact Except.noConfusion h
      · next p hp =>
        cases (Except.ok.inj h)
        obtain ⟨hp1, hp2⟩ := preRelease_parse_ok hp
        constructor
        · intro p' hp'
          cases (Option.some.inj hp')
          constructor
          · rw [hp1, joinDot_splitDot]
            exact substring_to_end_ne_nil hse
          · intro id hid
            exact hp2 id (by rwa [← hp1])
        · intro b' hb'
          exact Option.noConfusion hb'
    · exact Except.noConfusion h
  · -- leading '+': build only
    split at h
    · next v_build hse =>
      split at h
      · exact Except.noConfusion h
      · next b hb =>
        cases (Except.ok.inj h)
        obtain ⟨hb1, hb2⟩ := build_parse_ok hb
        constructor
        · intro p' hp'
          exact Option.noConfusion hp'
        · intro b' hb'
          cases (Option.some.inj hb')
          constructor
          · rw [hb1, joinDot_splitDot]
            exact substring_to_end_ne_nil hse
          · intro id hid
            exact hb2 id (by rwa [← hb1])
    · exact Except.noConfusion h
  · exact Except.noConfusion h

theorem version_parse_wf {ver : List Char} {v : Version}
    (h : Version.parse ver true = .ok v) : VersionWF v := by
  simp only [Version.parse] at h
  split at h
  · exact Except.noConfusion h
  · next x y z rem hcore =>
    obtain ⟨hx, hy, hz, hrem⟩ := version_core_ok_inv hcore
    split at h
    · split at h
      · exact Except.noConfusion h
      · next pb hpb =>
        cases (Except.ok.inj h)
        obtain ⟨h1, h2⟩ := ppb_ok_inv hpb
        exact ⟨hx, hy, hz, h1, h2⟩
    · cases (Except.ok.inj h)
      refine ⟨hx, hy, hz, ?_, ?_⟩
      · intro p hp
        exact Option.noConfusion hp
      · intro b hb
        exact Option.noConfusion hb

theorem mem_joinDot {c : Char} {l : List (List Char)} (h : c ∈ joinDot l) :
    (∃ id ∈ l, c ∈ id) ∨ c = '.' := by
  induction l with
  | nil => simp [joinDot] at h
  | cons x xs ih =>
    cases xs with
    | nil =>
      left
      exact ⟨x, by simp, h⟩
    | cons y ys =>
      rw [joinDot_cons x (by simp)] at h
      rcases List.mem_append.mp h with hx | hrest
      · left
        exact ⟨x, by simp, hx⟩
      · rcases List.mem_cons.mp hrest with rfl | hj
        · right
          rfl
        · rcases ih hj with ⟨id, hid, hcid⟩ | hdot
          · left
            exact ⟨id, by simp [hid], hcid⟩
          · right
            exact hdot

theorem joinDot_ne_nil_elim {l : List (List Char)} (h : joinDot l ≠ []) : l ≠ [] := by
  intro hl
  exact h (by rw [hl]; rfl)

theorem pre_wf_facts {l : List (List Char)} (hne : joinDot l ≠ [])
    (hids : ∀ id ∈ l, parse_pre_release_identifier id true = .ok id) :
    PreRelease.parse (joinDot l) true = .ok ⟨l⟩ ∧ ∀ c ∈ joinDot l, c ≠ '+' := by
  have lne : l ≠ [] := joinDot_ne_nil_elim hne
  have hchars : ∀ id ∈ l, id.all parse_is_identifier_character = true :=
    fun id hid => (pre_ident_strict_chars (hids id hid)).2
  have hdotfree : ∀ id ∈ l, ∀ c ∈ id, c ≠ '.' :=
    fun id hid c hc => id_ne_dot ((List.all_eq_true.mp (hchars id hid)) c hc)
  have hsplit := splitDot_joinDot lne hdotfree
  constructor
  · have hall : ∀ id ∈ splitDot (joinDot l),
        parse_pre_release_identifier id true = .ok id := by
      rw [hsplit]
      exact hids
    have := preRelease_parse_of_all hall
    rwa [hsplit] at this
  · intro c hc
    rcases mem_joinDot hc with ⟨id, hid, hcid⟩ | hdot
    · exact id_ne_plus ((List.all_eq_true.mp (hchars id hid)) c hcid)
    · subst hdot
      decide

theorem build_wf_facts {l : List (List Char)} (hne : joinDot l ≠ [])
    (hids : ∀ id ∈ l, parse_build_identifier id true = .ok id) :
    Build.parse (joinDot l) true = .ok ⟨l⟩ := by
  have lne : l ≠ [] := joinDot_ne_nil_elim hne
  have hchars : ∀ id ∈ l, id.all parse_is_identifier_character = true :=
    fun id hid => build_ident_strict_chars (hids id hid)
  have hdotfree : ∀ id ∈ l, ∀ c ∈ id, c ≠ '.' :=
    fun id hid c hc => id_ne_dot ((List.all_eq_true.mp (hchars id hid)) c hc)
  have hsplit := splitDot_joinDot lne hdotfree
  have hall : ∀ id ∈ splitDot (joinDot l),
      parse_build_identifier id true = .ok id := by
    rw [hsplit]
    exact hids
  have := build_parse_of_all hall
  rwa [hsplit] at this

theorem core_natDigits {x y z : Nat} (hx : x < 2 ^ 64) (hy : y < 2 ^ 64) (hz : z < 2 ^ 64)
    (R : List Char) (hR : ∀ c rest, R = c :: rest → isAsciiDigit c = false) :
    parse_version_core (natDigits x ++ '.' :: (natDigits y ++ '.' :: (natDigits z ++ R))) true
      = .ok (x, y, z, if R = [] then none else some R) :=
  core_of_parts true (parse_numeric_natDigits x) (parse_numeric_natDigits y)
    (parse_numeric_natDigits z) (rustParseU64_natDigits hx) (rustParseU64_natDigits hy)
    (rustParseU64_natDigits hz) (natDigits_all x) (natDigits_all y) (natDigits_all z)
    (natDigits_ne_nil x) (natDigits_ne_nil y) (natDigits_ne_nil z) hR

theorem wf_format_parse {v : Version} (hwf : VersionWF v) :
    Version.parse (Version.format v) true = .ok v := by
  obtain ⟨major, minor, patch, pre_release, build⟩ := v
  obtain ⟨hx, hy, hz, hpre, hbld⟩ := hwf
  simp only [] at hx hy hz hpre hbld
  cases pre_release with
  | none =>
    cases build with
    | none =>
      have hcore := core_natDigits hx hy hz [] (fun c rest hc => absurd hc (by simp))
      rw [List.append_nil] at hcore
      simp only [Version.format, Version.parse, hcore]
      simp
    | some b =>
      obtain ⟨hbne, hbids⟩ := hbld b rfl
      have hbparse := build_wf_facts hbne hbids
      have hR : ∀ c rest, ('+' :: joinDot b.build) = c :: rest → isAsciiDigit c = false := by
        intro c rest hc
        have hc1 : c = '+' := (List.cons.inj hc).1.symm
        subst hc1
        decide
      have hcore := core_natDigits hx hy hz ('+' :: joinDot b.build) hR
      rw [if_neg (by simp)] at hcore
      simp only [Version.format, Build.format, Version.parse, hcore]
      rw [ppb_plus]
      rw [if_neg hbne, hbparse]
  | some p =>
    obtain ⟨hpne, hpids⟩ := hpre p rfl
    obtain ⟨hpparse, hplusfree⟩ := pre_wf_facts hpne hpids
    cases build with
    | none =>
      have hR : ∀ c rest, ('-' :: joinDot p.pre_release) = c :: rest →
          isAsciiDigit c = false := by
        intro c rest hc
        have hc1 : c = '-' := (List.cons.inj hc).1.symm
        subst hc1
        decide
      have hcore := core_natDigits hx hy hz ('-' :: joinDot p.pre_release) hR
      rw [if_neg (by simp)] at hcore
      simp only [Version.format, PreRelease.format, Version.parse, hcore]
      rw [ppb_dash true hplusfree]
      rw [if_neg hpne, hpparse]
    | some b =>
      obtain ⟨hbne, hbids⟩ := hbld b rfl
      have hbparse := build_wf_facts hbne hbids
      have hR : ∀ c rest,
          ('-' :: (joinDot p.pre_release ++ '+' :: joinDot b.build)) = c :: rest →
          isAsciiDigit c = false := by
        intro c rest hc
        have hc1 : c = '-' := (List.cons.inj hc).1.symm
        subst hc1
        decide
      have hcore := core_natDigits hx hy hz
        ('-' :: (joinDot p.pre_release ++ '+' :: joinDot b.build)) hR
      rw [if_neg (by simp)] at hcore
      simp only [Version.format, PreRelease.format, Build.format, Version.parse, hcore]
      rw [ppb_dash_plus true hplusfree hpne hbne]
      rw [hpparse, hbparse]

theorem ident_lenient_eq (cs : List Char) :
    isOkE (parse_build_identifier cs false) = isOkE (parse_pre_release_identifier cs false) := by
  by_cases hall : cs.all parse_is_identifier_character = true
  · simp [parse_build_identifier, parse_pre_release_identifier, alphanum_lenient_eq, hall, isOkE]
  · have hnum : is_ascii_numeric cs = false := by
      cases hn : is_ascii_numeric cs with
      | false => rfl
      | true =>
        exfalso
        apply hall
        simp only [is_ascii_numeric, List.all_eq_true] at hn
        simp only [List.all_eq_true]
        exact fun c hc => digit_imp_id (hn c hc)
    simp [parse_build_identifier, parse_pre_release_identifier, alphanum_lenient_eq, hall, hnum,
      parse_numeric_identifier, isOkE]

theorem ident_strict_imp {cs : List Char}
    (h : isOkE (parse_pre_release_identifier cs true) = true) :
    isOkE (parse_build_identifier cs true) = true := by
  cases hp : parse_pre_release_identifier cs true with
  | error e =>
    rw [hp] at h
    simp [isOkE] at h
  | ok v =>
    unfold parse_pre_release_identifier at hp
    unfold parse_build_identifier
    split at hp
    · next id heq =>
      simp [isOkE]
    · next e heq =>
      split at hp
      · next id2 heq2 =>
        have hd := numeric_ok_digits heq2
        simp [hd, isOkE]
      · exact Except.noConfusion hp

theorem build_pre_lenient_eq (t : List Char) :
    isOkE (Build.parse t false) = isOkE (PreRelease.parse t false) := by
  rw [build_parse_isOk, preRelease_parse_isOk]
  generalize splitDot t = l
  induction l with
  | nil => rfl
  | cons x xs ih => simp [List.all_cons, ih, ident_lenient_eq x]

theorem build_pre_strict_imp {t : List Char}
    (h : isOkE (PreRelease.parse t true) = true) : isOkE (Build.parse t true) = true := by
  rw [preRelease_parse_isOk] at h
  rw [build_parse_isOk]
  rw [List.all_eq_true] at h ⊢
  intro id hid
  exact ident_strict_imp (h id hid)

theorem pre_strict_empty_segment {t : List Char} (h : [] ∈ splitDot t) :
    isOkE (PreRelease.parse t true) = false := by
  rw [preRelease_parse_isOk]
  rw [List.all_eq_false]
  refine ⟨[], h, ?_⟩
  decide

theorem parse_100_plus (b : List Char) (strict : Bool) :
    Version.parse ('1' :: '.' :: '0' :: '.' :: '0' :: '+' :: b) strict =
      if b = [] then .error ⟨.Build, .InvalidPattern⟩
      else
        match Build.parse b strict with
        | .ok bb => .ok ⟨1, 0, 0, none, some bb⟩
        | .error e => .error e := by
  have h1v : parse_numeric_identifier ['1'] strict = .ok ['1'] := by
    cases strict <;> decide
  have h0v : parse_numeric_identifier ['0'] strict = .ok ['0'] := by
    cases strict <;> decide
  have hcore := core_of_parts strict h1v h0v h0v
    (show rustParseU64 ['1'] = some 1 from by decide)
    (show rustParseU64 ['0'] = some 0 from by decide)
    (show rustParseU64 ['0'] = some 0 from by decide)
    (by decide) (by decide) (by decide) (by simp) (by simp) (by simp)
    (show ∀ c rest, ('+' :: b) = c :: rest → isAsciiDigit c = false from
      fun c rest hc => by
        have hc1 : c = '+' := (List.cons.inj hc).1.symm
        subst hc1
        decide)
  rw [if_neg (by simp)] at hcore
  have hcore2 : parse_version_core ('1' :: '.' :: '0' :: '.' :: '0' :: '+' :: b) strict
      = .ok (1, 0, 0, some ('+' :: b)) := by
    rw [show ('1' :: '.' :: '0' :: '.' :: '0' :: '+' :: b)
        = ['1'] ++ '.' :: (['0'] ++ '.' :: (['0'] ++ '+' :: b)) from by simp]
    exact hcore
  simp only [Version.parse, hcore2]
  rw [ppb_plus]
  by_cases hb : b = []
  · simp [hb]
  · rw [if_neg hb, if_neg hb]
    cases Build.parse b strict <;> rfl

/-- C1: the specified pre-release identifier comparison (all-digit identifiers
compare numerically) fails on the code: two all-digit identifiers that both
overflow the signed 64-bit parse are compared lexically, so the numerically
larger one is reported smaller. -/
theorem C1_cmp_pre_release_digit_overflow :
    cmp_pre_release ("10000000000000000000").toList ("9999999999999999999").toList
        = .lt ∧
      is_ascii_numeric ("10000000000000000000").toList = true ∧
      is_ascii_numeric ("9999999999999999999").toList = true ∧
      digitsVal ("9999999999999999999").toList
        < digitsVal ("10000000000000000000").toList := by
  refine ⟨by decide, by decide, by decide, by decide⟩

/-- C2: the SemVer ordering chain holds pairwise under strict parsing; a
version without pre-release compares greater than the otherwise-equal version
with any pre-release, and a strict-prefix identifier sequence compares lower
than any extension of it. -/
theorem C2_ordering_chain :
    (cmpStrict "1.0.0-alpha" "1.0.0-alpha.1" = some .lt ∧
      cmpStrict "1.0.0-alpha" "1.0.0-alpha.beta" = some .lt ∧
      cmpStrict "1.0.0-alpha" "1.0.0-beta" = some .lt ∧
      cmpStrict "1.0.0-alpha" "1.0.0-beta.2" = some .lt ∧
      cmpStrict "1.0.0-alpha" "1.0.0-beta.11" = some .lt ∧
      cmpStrict "1.0.0-alpha" "1.0.0-rc.1" = some .lt ∧
      cmpStrict "1.0.0-alpha" "1.0.0" = some .lt ∧
      cmpStrict "1.0.0-alpha.1" "1.0.0-alpha.beta" = some .lt ∧
      cmpStrict "1.0.0-alpha.1" "1.0.0-beta" = some .lt ∧
      cmpStrict "1.0.0-alpha.1" "1.0.0-beta.2" = some .lt ∧
      cmpStrict "1.0.0-alpha.1" "1.0.0-beta.11" = some .lt ∧
      cmpStrict "1.0.0-alpha.1" "1.0.0-rc.1" = some .lt ∧
      cmpStrict "1.0.0-alpha.1" "1.0.0" = some .lt ∧
      cmpStrict "1.0.0-alpha.beta" "1.0.0-beta" = some .lt ∧
      cmpStrict "1.0.0-alpha.beta" "1.0.0-beta.2" = some .lt ∧
      cmpStrict "1.0.0-alpha.beta" "1.0.0-beta.11" = some .lt ∧
      cmpStrict "1.0.0-alpha.beta" "1.0.0-rc.1" = some .lt ∧
      cmpStrict "1.0.0-alpha.beta" "1.0.0" = some .lt ∧
      cmpStrict "1.0.0-beta" "1.0.0-beta.2" = some .lt ∧
      cmpStrict "1.0.0-beta" "1.0.0-beta.11" = some .lt ∧
      cmpStrict "1.0.0-beta" "1.0.0-rc.1" = some .lt ∧
      cmpStrict "1.0.0-beta" "1.0.0" = some .lt ∧
      cmpStrict "1.0.0-beta.2" "1.0.0-beta.11" = some .lt ∧
      cmpStrict "1.0.0-beta.2" "1.0.0-rc.1" = some .lt ∧
      cmpStrict "1.0.0-beta.2" "1.0.0" = some .lt ∧
      cmpStrict "1.0.0-beta.11" "1.0.0-rc.1" = some .lt ∧
      cmpStrict "1.0.0-beta.11" "1.0.0" = some .lt ∧
      cmpStrict "1.0.0-rc.1" "1.0.0" = some .lt) ∧
    (∀ (a b c : Nat) (p : PreRelease) (b1 b2 : Option Build),
      Version.cmp ⟨a, b, c, none, b1⟩ ⟨a, b, c, some p, b2⟩ = some .gt) ∧
    (∀ (l : List (List Char)) (r : List Char) (rs : List (List Char)),
      PreRelease.cmp ⟨l⟩ ⟨l ++ r :: rs⟩ = some .lt) := by
  refine ⟨by decide, ?_, ?_⟩
  · intro a b c p b1 b2
    simp [Version.cmp, natCmp_refl]
  · intro l r rs
    rw [preRelease_cmp_eq, cmpIdLists_self_append]

/-- C3: counterexample to the claimed acceptance condition of the strict
alphanumeric validator: the identifier "0-" is non-empty, consists only of
identifier characters, and contains a non-digit, yet strict validation
rejects it (the code only accepts identifiers whose first character is a
non-digit). -/
theorem C3_counterexample :
    isOkE (parse_alphanumeric_identifier ("0-").toList true) = false ∧
      ("0-").toList ≠ [] ∧
      ("0-").toList.all parse_is_identifier_character = true ∧
      ("0-").toList.any (fun c => ! isAsciiDigit c) = true := by
  refine ⟨by decide, by decide, by decide, by decide⟩

/-- C3 (amended): strict alphanumeric identifier validation succeeds exactly
when the input is non-empty, its first character is a non-digit (letter or
hyphen), and every remaining character is an identifier character; on any
other input it fails with an AlphaNumericIdentifier/InvalidPattern error. -/
theorem C3_alphanumeric_strict :
    ∀ cs : List Char,
      parse_alphanumeric_identifier cs true =
        match cs with
        | [] => .error ⟨.AlphaNumericIdentifier, .InvalidPattern⟩
        | c :: rest =>
          if parse_is_non_digit c && rest.all parse_is_identifier_character then
            .ok (c :: rest)
          else .error ⟨.AlphaNumericIdentifier, .InvalidPattern⟩ :=
  alphanum_strict_eq

/-- C4: counterexample to the claimed error part: strict parsing of "01.2.3"
fails with the leading-zero reason, but the part is NumericIdentifier, not
VersionNumber. -/
theorem C4_counterexample :
    Version.parse ("01.2.3").toList true
        = .error ⟨.NumericIdentifier, .NumberIdentifierShouldNotHaveLeadingZero⟩ ∧
      ParseInvalidPart.NumericIdentifier ≠ ParseInvalidPart.VersionNumber := by
  refine ⟨by decide, by decide⟩

/-- C4 (amended): strict parsing of "01.2.3" fails with part
NumericIdentifier and the leading-zero reason, lenient parsing of "01.2.3"
succeeds with major 1; in general every error produced by the
numeric-identifier validator carries part NumericIdentifier (and is
propagated unchanged by the version-core parser). -/
theorem C4_leading_zero :
    Version.parse ("01.2.3").toList true
        = .error ⟨.NumericIdentifier, .NumberIdentifierShouldNotHaveLeadingZero⟩ ∧
      Version.parse ("01.2.3").toList false = .ok ⟨1, 2, 3, none, none⟩ ∧
      ∀ (cs : List Char) (strict : Bool) (e : ParseError),
        parse_numeric_identifier cs strict = .error e → e.part = .NumericIdentifier := by
  refine ⟨by decide, by decide, ?_⟩
  intro cs strict e h
  exact numeric_error_part h

/-- C4 witness: the general part-invariance applied at the concrete failing
segment "01" under strict validation. -/
theorem C4_witness :
    ParseError.part ⟨.NumericIdentifier, .NumberIdentifierShouldNotHaveLeadingZero⟩
      = .NumericIdentifier :=
  C4_leading_zero.2.2 ("01").toList true
    ⟨.NumericIdentifier, .NumberIdentifierShouldNotHaveLeadingZero⟩ (by decide)

/-- C5: version comparison never consults build metadata: versions that agree
on major, minor, patch and pre-release compare Equal whatever their build
parts; in particular any two successfully strict-parsed versions of the form
1.0.0+B compare Equal. -/
theorem C5_build_ignored :
    (∀ v1 v2 : Version, v1.major = v2.major → v1.minor = v2.minor →
      v1.patch = v2.patch → v1.pre_release = v2.pre_release →
      Version.cmp v1 v2 = some .eq) ∧
    (∀ (b1 b2 : List Char) (v1 v2 : Version),
      Version.parse (("1.0.0+").toList ++ b1) true = .ok v1 →
      Version.parse (("1.0.0+").toList ++ b2) true = .ok v2 →
      Version.cmp v1 v2 = some .eq) := by
  constructor
  · intro v1 v2 h1 h2 h3 h4
    exact version_cmp_eq_of_fields h1 h2 h3 h4
  · intro b1 b2 v1 v2 h1 h2
    rw [show ("1.0.0+").toList ++ b1 = '1' :: '.' :: '0' :: '.' :: '0' :: '+' :: b1 from
      by simp] at h1
    rw [show ("1.0.0+").toList ++ b2 = '1' :: '.' :: '0' :: '.' :: '0' :: '+' :: b2 from
      by simp] at h2
    rw [parse_100_plus] at h1 h2
    split at h1
    · exact Except.noConfusion h1
    · split at h1
      · next bb1 hbb1 =>
        split at h2
        · exact Except.noConfusion h2
        · split at h2
          · next bb2 hbb2 =>
            cases (Except.ok.inj h1)
            cases (Except.ok.inj h2)
            exact version_cmp_eq_of_fields rfl rfl rfl rfl
          · exact Except.noConfusion h2
      · exact Except.noConfusion h1

/-- C5 witness: two concrete versions differing only in build compare Equal. -/
theorem C5_witness :
    Version.cmp ⟨1, 0, 0, none, some ⟨[['b', '1']]⟩⟩ ⟨1, 0, 0, none, some ⟨[['b', '2']]⟩⟩
      = some .eq :=
  C5_build_ignored.2 ("b1").toList ("b2").toList _ _ (by decide) (by decide)

/-- C6: strict parse followed by canonical formatting round-trips: if a
string strict-parses to a version, formatting that version and strict-parsing
the result yields the same version. -/
theorem C6_roundtrip :
    ∀ (s : List Char) (v : Version), Version.parse s true = .ok v →
      Version.parse (Version.format v) true = .ok v :=
  fun _ _ h => wf_format_parse (version_parse_wf h)

/-- C6 witness: the round trip at the concrete input "1.2.3-a.1+b.01". -/
theorem C6_witness :
    Version.parse
        (Version.format ⟨1, 2, 3, some ⟨[['a'], ['1']]⟩, some ⟨[['b'], ['0', '1']]⟩⟩) true
      = .ok ⟨1, 2, 3, some ⟨[['a'], ['1']]⟩, some ⟨[['b'], ['0', '1']]⟩⟩ :=
  C6_roundtrip ("1.2.3-a.1+b.01").toList
    ⟨1, 2, 3, some ⟨[['a'], ['1']]⟩, some ⟨[['b'], ['0', '1']]⟩⟩ (by decide)

/-- C7: counterexample to "empty dot-separated segments are rejected for
every strictness flag": under lenient validation both PreRelease::parse and
Build::parse accept "a..b", whose middle segment is empty; Build::parse even
accepts it under strict validation. -/
theorem C7_counterexample :
    ([] : List Char) ∈ splitDot ("a..b").toList ∧
      isOkE (PreRelease.parse ("a..b").toList false) = true ∧
      isOkE (Build.parse ("a..b").toList false) = true ∧
      isOkE (Build.parse ("a..b").toList true) = true := by
  refine ⟨by decide, by decide, by decide, by decide⟩

/-- C7 (amended): under strict validation PreRelease::parse rejects every
text containing an empty dot-separated segment, and Version::parse of a
version whose remainder is a lone trailing separator ("1.0.0-" or "1.0.0+")
fails with InvalidPattern under both strictness flags. -/
theorem C7_empty_segments :
    (∀ t : List Char, [] ∈ splitDot t → isOkE (PreRelease.parse t true) = false) ∧
      Version.parse ("1.0.0-").toList true = .error ⟨.PreRelease, .InvalidPattern⟩ ∧
      Version.parse ("1.0.0-").toList false = .error ⟨.PreRelease, .InvalidPattern⟩ ∧
      Version.parse ("1.0.0+").toList true = .error ⟨.Build, .InvalidPattern⟩ ∧
      Version.parse ("1.0.0+").toList false = .error ⟨.Build, .InvalidPattern⟩ := by
  refine ⟨?_, by decide, by decide, by decide, by decide⟩
  intro t h
  exact pre_strict_empty_segment h

/-- C7 witness: strict PreRelease::parse rejects the concrete text "a..b". -/
theorem C7_witness :
    isOkE (PreRelease.parse ("a..b").toList true) = false :=
  C7_empty_segments.1 ("a..b").toList (by decide)

/-- C8: counterexample to "Build::parse and PreRelease::parse accept exactly
the same inputs": under strict validation Build::parse accepts the
leading-zero digit run "01" while PreRelease::parse rejects it. -/
theorem C8_counterexample :
    isOkE (Build.parse ("01").toList true) = true ∧
      isOkE (PreRelease.parse ("01").toList true) = false := by
  refine ⟨by decide, by decide⟩

/-- C8 (amended): under lenient validation Build::parse and PreRelease::parse
succeed on exactly the same inputs; under strict validation every input
accepted by PreRelease::parse is accepted by Build::parse (but not
conversely). -/
theorem C8_build_vs_pre :
    (∀ t : List Char, isOkE (Build.parse t false) = isOkE (PreRelease.parse t false)) ∧
      ∀ t : List Char, isOkE (PreRelease.parse t true) = true →
        isOkE (Build.parse t true) = true := by
  constructor
  · exact build_pre_lenient_eq
  · intro t h
    exact build_pre_strict_imp h

/-- C8 witness: the strict inclusion applied at the concrete text "alpha". -/
theorem C8_witness :
    isOkE (Build.parse ("alpha").toList true) = true :=
  C8_build_vs_pre.2 ("alpha").toList (by decide)

/-- C9: Version equality is structural over all five fields, build included;
consequently the two versions 1.0.0+b1 and 1.0.0+b2 compare Equal yet are
not equal. -/
theorem C9_equals_structural :
    (∀ a b : Version, Version.equals a b
        = decide (a.major = b.major ∧ a.minor = b.minor ∧ a.patch = b.patch ∧
            a.pre_release = b.pre_release ∧ a.build = b.build)) ∧
      Version.parse ("1.0.0+b1").toList true
        = .ok ⟨1, 0, 0, none, some ⟨[['b', '1']]⟩⟩ ∧
      Version.parse ("1.0.0+b2").toList true
        = .ok ⟨1, 0, 0, none, some ⟨[['b', '2']]⟩⟩ ∧
      Version.cmp ⟨1, 0, 0, none, some ⟨[['b', '1']]⟩⟩ ⟨1, 0, 0, none, some ⟨[['b', '2']]⟩⟩
        = some .eq ∧
      Version.equals ⟨1, 0, 0, none, some ⟨[['b', '1']]⟩⟩ ⟨1, 0, 0, none, some ⟨[['b', '2']]⟩⟩
        = false := by
  refine ⟨?_, by decide, by decide, by decide, by decide⟩
  intro a b
  simp [Version.equals, Bool.decide_and, Bool.and_assoc]

/-- C10: the codepoint substring helpers behave as specified: substring
returns Some exactly when the start index is below the finish index and the
finish index is at most the codepoint count, and then yields the codepoints
in that half-open range (never the empty string); substring_to_end returns
Some exactly when the start index is below the codepoint count. -/
theorem C10_substring_spec :
    (∀ (cs : List Char) (a b : Nat),
        substring cs a b =
          if a < b ∧ b ≤ cs.length then some ((cs.take b).drop a) else none) ∧
      (∀ (cs : List Char) (a b : Nat),
        decide (substring cs a b = some []) = false) ∧
      ∀ (cs : List Char) (a : Nat),
        substring_to_end cs a = if a < cs.length then some (cs.drop a) else none := by
  refine ⟨substring_eq, ?_, substring_to_end_eq⟩
  intro cs a b
  apply decide_eq_false
  intro h
  exact substring_ne_nil h rfl
